import Mathlib

/-!
Verification of the adaptive outbound selection strategy
(`app/router/balancing_optimal_strategy.go` of the v2ray-core fork).

The Go code is shallowly embedded:

* `float64` arithmetic is modelled by exact rationals (`ℚ`).  All claim
  statements stay inside ranges where the two agree exactly (small integer
  scores, powers of two), and hypotheses state the ranges where they matter.
* `time.Duration` values are in nanoseconds (`ℕ`), as in Go.
* Go panics are modelled with explicit sum types (`Except`/`PickResult`).
* The network and the clock are modelled by oracles: a probe trial's outcome
  (request error, or response body bytes plus elapsed nanoseconds) is an input
  to the embedded functions, exactly at the boundary where the source consumes
  `client.Do` and `time.Now`.
* `sync`-based concurrency is treated in two ways: the data-parallel part of a
  round (disjoint result slots joined by a `WaitGroup` barrier) is modelled by
  the equivalent sequential `List.map`; the double-checked locking of
  `PickOutbound` is modelled by an explicit interleaving semantics further
  below (`DCLStep`).
-/

/-- `BalancingOptimalStrategyConfig` from `config.pb.go`: `Timeout`, `Interval`
and `Count` are `uint32` (held as `ℕ`), `Url` a string. -/
structure BalancingOptimalStrategyConfig where
  Timeout : ℕ
  Interval : ℕ
  Url : String
  Count : ℕ

/-- The part of Go's `url.URL` the strategy reads: the scheme, plus the rest of
the raw URL (opaque to the strategy). -/
structure GoURL where
  scheme : String
  rest : String
deriving DecidableEq

/-- `task.Periodic` as far as the strategy observes it: the `Interval` field
(nanoseconds).  The `Execute` field is the strategy's own `run` method and is
not part of the data model. -/
structure Periodic where
  Interval : ℕ
deriving DecidableEq

/-- The `OptimalStrategy` struct.  `obm` (the outbound manager) is modelled by
the only capability the pure code uses: whether `GetHandler tag` is non-nil.
The behaviour of a resolved handler enters through the probe oracle instead.
`timeout`/`interval` are nanoseconds. -/
structure OptimalStrategy where
  timeout : ℕ
  interval : ℕ
  url : Option GoURL
  count : ℕ
  obm : String → Bool
  tag : String
  tags : List String
  periodic : Option Periodic

/-- Scheme letters per Go `net/url.getScheme`: ASCII alphabetic. -/
def isSchemeAlpha (c : Char) : Bool :=
  (('a' ≤ c) && (c ≤ 'z')) || (('A' ≤ c) && (c ≤ 'Z'))

/-- Further scheme characters allowed after the first: digits, `+`, `-`, `.`. -/
def isSchemeOther (c : Char) : Bool :=
  (('0' ≤ c) && (c ≤ '9')) || (c = '+') || (c = '-') || (c = '.')

/-- The loop of Go `net/url.getScheme`: scan for a `:` terminating a valid
scheme; a non-scheme character or a digit-class character at position 0 means
"no scheme" (the whole string is returned as the remainder); a leading `:` is
an error. -/
def getSchemeLoop (raw : List Char) : List Char → ℕ → Except String (String × String)
  | [], _ => .ok ("", String.mk raw)
  | c :: restChars, i =>
    if isSchemeAlpha c then getSchemeLoop raw restChars (i + 1)
    else if isSchemeOther c then
      (if i = 0 then .ok ("", String.mk raw) else getSchemeLoop raw restChars (i + 1))
    else if c = ':' then
      (if i = 0 then .error ("missing protocol scheme")
       else .ok (String.mk (raw.take i), String.mk (raw.drop (i + 1))))
    else .ok ("", String.mk raw)

/-- Go `net/url.getScheme` on a raw URL string. -/
def getSchemeGo (raw : String) : Except String (String × String) :=
  getSchemeLoop raw.toList raw.toList 0

/-- Modelled from Go `net/url.Parse`, restricted to what the strategy's scheme
validation can observe: the ASCII-control-character check and scheme
extraction (`getScheme`) with lowercasing.  Deeper validation performed by the
real `url.Parse` (percent encodings, host syntax) is not modelled and never
errors here; the construction theorem below is therefore stated for an
arbitrary parse function and this model is used only to instantiate it. -/
def goURLParse (raw : String) : Except String GoURL :=
  if raw.toList.any (fun c => (c < ' ') || (c = '\x7f')) then
    .error ("net/url: invalid control character in URL")
  else
    match getSchemeGo raw with
    | .error e => .error e
    | .ok (sch, remainder) => .ok ⟨sch.toLower, remainder⟩

/-- `NewOptimalStrategy` (source lines 38-69), parametrised by the URL parser.
Defaults: timeout 0 ⇒ 5 s, interval 0 ⇒ 600 s, empty URL ⇒ parse
`https://www.google.com` with the error discarded (`s.url, _ = url.Parse(...)`),
count 0 ⇒ 3.  A non-empty URL that fails to parse, or whose scheme is neither
`http` nor `https`, panics (`Except.error`). -/
def NewOptimalStrategy (parse : String → Except String GoURL)
    (config : BalancingOptimalStrategyConfig) : Except String OptimalStrategy :=
  let timeout := if config.Timeout = 0 then 5 * 1000000000 else config.Timeout * 1000000
  let interval := if config.Interval = 0 then 600 * 1000000000 else config.Interval * 1000000
  let urlRes : Except String (Option GoURL) :=
    if config.Url = "" then .ok (parse ("https://www.google.com")).toOption
    else
      match parse config.Url with
      | .error e => .error e
      | .ok u =>
        if u.scheme ≠ "http" ∧ u.scheme ≠ "https" then .error ("Only http/https url support")
        else .ok (some u)
  match urlRes with
  | .error e => .error e
  | .ok u =>
    .ok { timeout := timeout
          interval := interval
          url := u
          count := if config.Count = 0 then 3 else config.Count
          obm := fun _ => false
          tag := ""
          tags := []
          periodic := none }

/-- Outcome of a call to `PickOutbound`: a Go panic, or a returned tag together
with the strategy state after the call. -/
inductive PickResult
  | panicked (msg : String)
  | ok (tag : String) (s : OptimalStrategy)

/-- `PickOutbound` (source lines 72-96), single-caller semantics.  The mutex
acquire/recheck collapses to the plain recheck because no other thread runs in
between; the concurrent semantics of the same lines is `DCLStep` below.
Note the one-candidate branch returns the stored field `s.tag`, not the
supplied candidate. -/
def PickOutbound (s : OptimalStrategy) (obm : String → Bool) (tags : List String) :
    PickResult :=
  if tags.length = 0 then .panicked ("0 tags")
  else if tags.length = 1 then .ok s.tag s
  else
    let s1 := { s with obm := obm, tags := tags }
    if s1.periodic = none then
      -- periodicMutex.Lock(); recheck
      if s1.periodic = none then
        let s2 := { s1 with tag := s1.tags.headI, periodic := some ⟨s1.interval⟩ }
        .ok s2.tag s2
      else .ok s1.tag s1
    else .ok s1.tag s1

/-- Go `bufio.dropCR`: remove one trailing `\r` (byte 13) from a scanned line. -/
def dropCR (l : List ℕ) : List ℕ :=
  if l.getLast? = some 13 then l.dropLast else l

/-- `bufio.MaxScanTokenSize`, the default cap on a scanned token (64 KiB):
the scanner buffer never grows beyond this size. -/
def maxScanTokenSize : ℕ := 65536

/-- The byte count produced by walking the body's lines (the segments between
`\n` bytes) as the scan loop does.  A line whose raw content (terminating
`\n` excluded, any `\r` included) fits the buffer — strictly fewer than
`maxScanTokenSize` bytes, so that content plus `\n` fit — yields a token of
`dropCR line`; a line that reaches the cap cannot ever be completed in the
buffer, so `Scan` fails with `ErrTooLong` (the error is never looked at by
`testOutboud`) and the loop ends with only the earlier lines counted.  A
trailing empty segment mirrors the scanner's end-of-input (no token, 0 bytes).
Boundary note: for an unterminated final line of exactly `maxScanTokenSize`
bytes Go's outcome depends on whether the reader delivers EOF together with
the last bytes; this follows the common HTTP-body behaviour (`n, nil` then
`0, io.EOF`), which gives `ErrTooLong`. -/
def scanLinesCount : List (List ℕ) → ℕ
  | [] => 0
  | line :: rest =>
    if line.length < maxScanTokenSize then (dropCR line).length + scanLinesCount rest
    else 0

/-- Byte count accumulated by the scan loop of `testOutboud` (source lines
153-157): the body is consumed by a `bufio.Scanner` with the default
`ScanLines` split and the default 64 KiB token cap. -/
def contentSize (body : List ℕ) : ℕ :=
  scanLinesCount (body.splitOn 10)

/-- The scan count without the token cap: every line contributes its
`dropCR`-trimmed length.  Used to characterise `contentSize` on bodies whose
lines all fit the buffer. -/
def fullScanCount (body : List ℕ) : ℕ :=
  (((body.splitOn 10).map (fun t => (dropCR t).length)).sum)

/-- What one probe trial observes at the `client.Do` boundary: a request error
(network failure or timeout), or the full response body (as bytes) together
with the elapsed nanoseconds from just before the request to just after the
body is drained. -/
inductive TrialOutcome
  | failure
  | success (body : List ℕ) (elapsedNs : ℕ)

/-- Score of one trial (source lines 146-165): 0 on request error; otherwise
`contentSize / elapsedSeconds` when the scanned byte count is non-zero and
`100 / elapsedSeconds` when it is zero.  `elapsedSeconds` is
`(finish - start in ns) / float64(time.Second)` with `time.Second = 10^9`. -/
def trialScore : TrialOutcome → ℚ
  | .failure => 0
  | .success body elapsedNs =>
    let cs := contentSize body
    if cs ≠ 0 then (cs : ℚ) / ((elapsedNs : ℚ) / 1000000000)
    else 100 / ((elapsedNs : ℚ) / 1000000000)

/-- `uint32` subtraction (used for `s.count - 2` at source line 189). -/
def sub32 (a b : ℕ) : ℕ := (a + 2 ^ 32 - b) % 2 ^ 32

/-- One iteration of the aggregation loop of `testOutboud` (source lines
177-185): update the running minimum, maximum and sum. -/
def aggStep (acc : ℚ × ℚ × ℚ) (score : ℚ) : ℚ × ℚ × ℚ :=
  (if score < acc.1 then score else acc.1,
   if acc.2.1 < score then score else acc.2.1,
   acc.2.2 + score)

/-- Aggregation of one candidate's trial scores (source lines 171-190).  The
minimum and maximum start from the sentinels `float64(math.MaxInt64)` and
`float64(math.MinInt64)`, which convert to `2^63` and `-2^63` exactly.  Fewer
than 3 scores: plain mean; otherwise `(sum - min - max) / uint32(count - 2)`.
In the source `scores` always has length `count`. -/
def aggregateScore (count : ℕ) (scores : List ℚ) : ℚ :=
  let acc := scores.foldl aggStep ((2 : ℚ) ^ 63, -(2 : ℚ) ^ 63, 0)
  if scores.length < 3 then acc.2.2 / (scores.length : ℚ)
  else (acc.2.2 - acc.1 - acc.2.1) / ((sub32 count 2 : ℕ) : ℚ)

/-- The aggregation policy in the spec's words: mean below 3 trials, otherwise
discard one true minimum and one true maximum and divide by `count - 2`.
Stated with the genuine extrema of the score list, for comparison with the
sentinel-based `aggregateScore`. -/
def specAggregate (count : ℕ) (scores : List ℚ) : ℚ :=
  if scores.length < 3 then scores.sum / (scores.length : ℚ)
  else (scores.sum - (scores.min?.getD 0) - (scores.max?.getD 0)) / ((count : ℚ) - 2)

/-- Line-terminator bytes of a body, in the spec-amendment's words: each `\n`,
each `\r` immediately preceding a `\n`, and a single `\r` ending the body.
Used to characterise `contentSize` independently of the scanner. -/
def termBytes : List ℕ → ℕ
  | [] => 0
  | 13 :: 10 :: rest => 2 + termBytes rest
  | 10 :: rest => 1 + termBytes rest
  | [13] => 1
  | _ :: rest => termBytes rest

/-- `testOutboud` (source lines 131-193) reduced to the score it writes into
its result slot: 0 when the handler for the tag cannot be resolved (the slot
keeps its zero value), otherwise the aggregation of the `count` trial scores
produced by the probe oracle. -/
def testOutboudScore (obm : String → Bool) (oracle : String → ℕ → TrialOutcome)
    (tag : String) (count : ℕ) : ℚ :=
  if obm tag then
    aggregateScore count ((List.range count).map (fun i => trialScore (oracle tag i)))
  else 0

/-- `optimalStrategyTestResult` (source lines 98-101). -/
structure OptimalStrategyTestResult where
  tag : String
  score : ℚ
deriving DecidableEq

/-!
`sort.Slice` as the Go toolchains contemporary with this source implement it
(`sort.quickSort` of Go ≤ 1.18): intro-sort with median-of-three (or
median-of-nine) pivoting, a duplicate-protection pass, a depth limit falling
back to heapsort, and — for ranges of at most 12 elements — a single
shellsort pass with gap 6 followed by insertion sort.  It is deliberately not
a stable sort.

The comparator closure at source line 119 reads `results[i].score` from the
slice being sorted, so it always compares the current elements at `i` and `j`;
it is modelled by an element comparator applied through `idxLess`.  All loops
are given explicit fuel so every function stays structurally recursive (and
kernel-evaluable); the fuel supplied is always sufficient on executed paths.
Out-of-range index reads go through `List.getD` with a default element; the
executed paths only index in range.
-/

section GoSort

variable {α : Type} (cmp : α → α → Bool) (d : α)

/-- Swap the elements at positions `i` and `j`. -/
def swapL (l : List α) (i j : ℕ) : List α :=
  match l.get? i, l.get? j with
  | some x, some y => (l.set i y).set j x
  | _, _ => l

/-- `less(i, j)` of `sort.lessSwap`: compare the current elements. -/
def idxLess (l : List α) (i j : ℕ) : Bool :=
  cmp (l.getD i d) (l.getD j d)

/-- Go `sort.medianOfThree(data, m1, m0, m2)`. -/
def medianOfThree (l : List α) (m1 m0 m2 : ℕ) : List α :=
  let l1 := if idxLess cmp d l m1 m0 then swapL l m1 m0 else l
  if idxLess cmp d l1 m2 m1 then
    let l2 := swapL l1 m2 m1
    if idxLess cmp d l2 m1 m0 then swapL l2 m1 m0 else l2
  else l1

/-- `for ; a < c && data.Less(a, pivot); a++` of `doPivot`. -/
def advA (l : List α) (pivot c : ℕ) : ℕ → ℕ → ℕ
  | 0, a => a
  | fuel + 1, a =>
    if decide (a < c) && idxLess cmp d l a pivot then advA l pivot c fuel (a + 1) else a

/-- `for ; b < c && !data.Less(pivot, b); b++` of `doPivot`'s partition loop. -/
def advB (l : List α) (pivot c : ℕ) : ℕ → ℕ → ℕ
  | 0, b => b
  | fuel + 1, b =>
    if decide (b < c) && !idxLess cmp d l pivot b then advB l pivot c fuel (b + 1) else b

/-- `for ; b < c && data.Less(pivot, c-1); c--` of `doPivot`'s partition loop. -/
def advC (l : List α) (pivot b : ℕ) : ℕ → ℕ → ℕ
  | 0, c => c
  | fuel + 1, c =>
    if decide (b < c) && idxLess cmp d l pivot (c - 1) then advC l pivot b fuel (c - 1) else c

/-- The partition loop of `doPivot`: advance `b` and `c`, stop when they cross,
otherwise swap `b` with `c-1` and continue. -/
def partLoop (pivot : ℕ) : ℕ → List α → ℕ → ℕ → List α × ℕ × ℕ
  | 0, l, b, c => (l, b, c)
  | fuel + 1, l, b, c =>
    let b1 := advB cmp d l pivot c c b
    let c1 := advC cmp d l pivot b1 c c
    if b1 ≥ c1 then (l, b1, c1)
    else partLoop pivot fuel (swapL l b1 (c1 - 1)) (b1 + 1) (c1 - 1)

/-- `for ; a < b && !data.Less(b-1, pivot); b--` of the duplicate-protection
loop. -/
def protB (l : List α) (pivot a : ℕ) : ℕ → ℕ → ℕ
  | 0, b => b
  | fuel + 1, b =>
    if decide (a < b) && !idxLess cmp d l (b - 1) pivot then protB l pivot a fuel (b - 1) else b

/-- `for ; a < b && data.Less(a, pivot); a++` of the duplicate-protection
loop. -/
def protA (l : List α) (pivot b : ℕ) : ℕ → ℕ → ℕ
  | 0, a => a
  | fuel + 1, a =>
    if decide (a < b) && idxLess cmp d l a pivot then protA l pivot b fuel (a + 1) else a

/-- The duplicate-protection loop of `doPivot`. -/
def protLoop (pivot : ℕ) : ℕ → List α → ℕ → ℕ → List α × ℕ × ℕ
  | 0, l, a, b => (l, a, b)
  | fuel + 1, l, a, b =>
    let b1 := protB cmp d l pivot a b b
    let a1 := protA cmp d l pivot b1 b1 a
    if a1 ≥ b1 then (l, a1, b1)
    else protLoop pivot fuel (swapL l a1 (b1 - 1)) (a1 + 1) (b1 - 1)

/-- First duplicate test of `doPivot`: `if !data.Less(pivot, hi-1) { Swap(c,
hi-1); c++; dups++ }`.  State is `(data, b, c, dups)`. -/
def dupsStep1 (pivot hi : ℕ) (t : List α × ℕ × ℕ × ℕ) : List α × ℕ × ℕ × ℕ :=
  if !idxLess cmp d t.1 pivot (hi - 1) then (swapL t.1 t.2.2.1 (hi - 1), t.2.1, t.2.2.1 + 1, t.2.2.2 + 1)
  else t

/-- Second duplicate test of `doPivot`: `if !data.Less(b-1, pivot) { b--;
dups++ }`. -/
def dupsStep2 (pivot : ℕ) (t : List α × ℕ × ℕ × ℕ) : List α × ℕ × ℕ × ℕ :=
  if !idxLess cmp d t.1 (t.2.1 - 1) pivot then (t.1, t.2.1 - 1, t.2.2.1, t.2.2.2 + 1)
  else t

/-- Third duplicate test of `doPivot`: `if !data.Less(m, pivot) { Swap(m, b-1);
b--; dups++ }`. -/
def dupsStep3 (m pivot : ℕ) (t : List α × ℕ × ℕ × ℕ) : List α × ℕ × ℕ × ℕ :=
  if !idxLess cmp d t.1 m pivot then (swapL t.1 m (t.2.1 - 1), t.2.1 - 1, t.2.2.1, t.2.2.2 + 1)
  else t

/-- Tail of `doPivot` after the `protect` flag is settled: optionally run the
duplicate-protection loop, then swap the pivot into the middle and return
`(midlo, midhi)`.  State is `(data, a, b, c, protect)`. -/
def doPivotProtect (pivot hi : ℕ) (t : List α × ℕ × ℕ × ℕ × Bool) : List α × ℕ × ℕ :=
  let post := if t.2.2.2.2 then protLoop cmp d pivot hi t.1 t.2.1 t.2.2.1
              else (t.1, t.2.1, t.2.2.1)
  (swapL post.1 pivot (post.2.2 - 1), post.2.2 - 1, t.2.2.2.1)

/-- `doPivot` from the partition outcome on: compute `protect`, run the three
duplicate tests when the heuristic fires, then finish via `doPivotProtect`.
State is `(data, a, b, c)`. -/
def doPivotTail (m pivot lo hi : ℕ) (t : List α × ℕ × ℕ × ℕ) : List α × ℕ × ℕ :=
  let protect0 := decide (hi - t.2.2.2 < 5)
  if !protect0 && decide (hi - t.2.2.2 < (hi - lo) / 4) then
    let r := dupsStep3 cmp d m pivot (dupsStep2 cmp d pivot (dupsStep1 cmp d pivot hi (t.1, t.2.2.1, t.2.2.2, 0)))
    doPivotProtect cmp d pivot hi (r.1, t.2.1, r.2.1, r.2.2.1, decide (r.2.2.2 > 1))
  else doPivotProtect cmp d pivot hi (t.1, t.2.1, t.2.2.1, t.2.2.2, protect0)

/-- Go `sort.doPivot(data, lo, hi)`, returning the array and `(midlo, midhi)`:
median-of-three (or Tukey-ninther) pivot selection with the pivot parked at
`lo`, the partition loop, then the duplicate handling of `doPivotTail`. -/
def doPivot (l : List α) (lo hi : ℕ) : List α × ℕ × ℕ :=
  let m := (lo + hi) / 2
  let l1 :=
    if hi - lo > 40 then
      let s := (hi - lo) / 8
      medianOfThree cmp d
        (medianOfThree cmp d
          (medianOfThree cmp d l lo (lo + s) (lo + 2 * s)) m (m - s) (m + s))
        (hi - 1) (hi - 1 - s) (hi - 1 - 2 * s)
    else l
  let l2 := medianOfThree cmp d l1 lo m (hi - 1)
  let a0 := advA cmp d l2 lo (hi - 1) (hi - 1) (lo + 1)
  let pl := partLoop cmp d lo hi l2 a0 (hi - 1)
  doPivotTail cmp d m lo lo hi (pl.1, a0, pl.2.1, pl.2.2)

/-- The gap-6 shellsort pass done for ranges of at most 12 elements. -/
def shellPass : ℕ → List α → ℕ → ℕ → List α
  | 0, l, _, _ => l
  | fuel + 1, l, i, b =>
    if i < b then
      shellPass fuel (if idxLess cmp d l i (i - 6) then swapL l i (i - 6) else l) (i + 1) b
    else l

/-- Inner loop of `sort.insertionSort`: sink element `j` while it is less than
its predecessor and `j > a`. -/
def insInner (a : ℕ) : List α → ℕ → List α
  | l, 0 => l
  | l, j + 1 =>
    if decide (a < j + 1) && idxLess cmp d l (j + 1) j then insInner a (swapL l (j + 1) j) j
    else l

/-- Outer loop of `sort.insertionSort`, `i` from `a+1` to `b-1`. -/
def insLoop (a : ℕ) : ℕ → List α → ℕ → ℕ → List α
  | 0, l, _, _ => l
  | fuel + 1, l, i, b =>
    if i < b then insLoop a fuel (insInner cmp d a l i) (i + 1) b else l

/-- Go `sort.insertionSort(data, a, b)`. -/
def insertionSortGo (l : List α) (a b : ℕ) : List α :=
  insLoop cmp d a b l (a + 1) b

/-- Go `sort.siftDown(data, root, hi, first)`. -/
def siftDownGo : ℕ → List α → ℕ → ℕ → ℕ → List α
  | 0, l, _, _, _ => l
  | fuel + 1, l, root, hi, first =>
    let child := 2 * root + 1
    if child ≥ hi then l
    else
      let child1 :=
        if decide (child + 1 < hi) && idxLess cmp d l (first + child) (first + child + 1) then
          child + 1
        else child
      if !idxLess cmp d l (first + root) (first + child1) then l
      else siftDownGo fuel (swapL l (first + root) (first + child1)) child1 hi first

/-- Heap-building loop of `sort.heapSort`: `i` from `(hi-1)/2` down to 0
(the counter equals `i + 1`). -/
def heapBuild : List α → ℕ → ℕ → ℕ → List α
  | l, 0, _, _ => l
  | l, k + 1, hi, first => heapBuild (siftDownGo cmp d hi l k hi first) k hi first

/-- Pop loop of `sort.heapSort`: `i` from `hi-1` down to 0 (the counter equals
`i + 1`); swap the root out and re-sift. -/
def heapPop : List α → ℕ → ℕ → List α
  | l, 0, _ => l
  | l, k + 1, first => heapPop (siftDownGo cmp d k (swapL l first (first + k)) 0 k first) k first

/-- Go `sort.heapSort(data, a, b)`. -/
def heapSortGo (l : List α) (a b : ℕ) : List α :=
  let first := a
  let hi := b - a
  heapPop cmp d (heapBuild cmp d l ((hi - 1) / 2 + 1) hi first) hi first

/-- Go `sort.quickSort(data, a, b, maxDepth)`, with the iterative
smaller-side-first loop written as recursion on both halves. -/
def quickSortF : ℕ → List α → ℕ → ℕ → ℕ → List α
  | 0, l, _, _, _ => l
  | fuel + 1, l, a, b, maxDepth =>
    if b - a > 12 then
      if maxDepth = 0 then heapSortGo cmp d l a b
      else
        let p := doPivot cmp d l a b
        let l1 := p.1
        let mlo := p.2.1
        let mhi := p.2.2
        if mlo - a < b - mhi then
          quickSortF fuel (quickSortF fuel l1 a mlo (maxDepth - 1)) mhi b (maxDepth - 1)
        else
          quickSortF fuel (quickSortF fuel l1 mhi b (maxDepth - 1)) a mlo (maxDepth - 1)
    else if b - a > 1 then
      insertionSortGo cmp d (shellPass cmp d b l (a + 6) b) a b
    else l

/-- The loop of Go `sort.maxDepth`: count the bits of `n`. -/
def maxDepthLoop : ℕ → ℕ → ℕ
  | 0, _ => 0
  | fuel + 1, i => if i > 0 then maxDepthLoop fuel (i / 2) + 1 else 0

/-- Go `sort.maxDepth(n) = 2 * bits(n)`. -/
def maxDepthGo (n : ℕ) : ℕ := 2 * maxDepthLoop n n

/-- Go `sort.Slice(slice, less)`: `quickSort(lessSwap{less, swap}, 0, len,
maxDepth(len))`.  The recursion fuel `maxDepth + 2` covers the maximal
recursion depth (`maxDepth` levels of `doPivot` plus the base cases). -/
def goSortSlice (l : List α) : List α :=
  quickSortF cmp d (maxDepthGo l.length + 2) l 0 l.length (maxDepthGo l.length)

end GoSort

/-- The comparator of source line 119-122: descending score,
`results[i].score > results[j].score`. -/
def resultLess (x y : OptimalStrategyTestResult) : Bool :=
  decide (x.score > y.score)

/-- Default element used for (never-executed) out-of-range reads. -/
def dfltResult : OptimalStrategyTestResult := ⟨"", 0⟩

/-- The ranking step of `run` (source lines 119-122): `sort.Slice` on the
results with the descending-score comparator. -/
def rankResults (results : List OptimalStrategyTestResult) : List OptimalStrategyTestResult :=
  goSortSlice resultLess dfltResult results

/-- `run` (source lines 104-128).  The concurrent `testOutboud` goroutines
write disjoint result slots and are joined by a `WaitGroup` before any read,
so the round is the sequential map below.  Returns `none` for the only
possible panic (indexing `results[0]` of an empty slice — unreachable, since
the scheduler only starts with ≥ 2 tags), otherwise the updated strategy and
the function's returned error, which is always `nil` (`Option.none`). -/
def run (oracle : String → ℕ → TrialOutcome) (s : OptimalStrategy) :
    Option (OptimalStrategy × Option String) :=
  let results := s.tags.map (fun tag => ⟨tag, testOutboudScore s.obm oracle tag s.count⟩)
  match rankResults results with
  | [] => none
  | r :: _ => some ({ s with tag := r.tag }, none)

/-!
Interleaving semantics of the double-checked locking in `PickOutbound`
(source lines 82-93), for the concurrency claim.  Any number of callers, each
already past the `len(tags) > 1` branch, executes

    checkOuter:   if s.periodic == nil        (unlocked read)
    waitLock:     s.periodicMutex.Lock()
    checkInner:   if s.periodic == nil        (read under the lock)
    setTag:       s.tag = s.tags[0]
    setPeriodic:  s.periodic = &task.Periodic{...}   (one construction)
    goStart:      go s.periodic.Start()               (one launch)
    unlock:       s.periodicMutex.Unlock()

one statement per atomic step, under sequential consistency (the Go memory
model's treatment of the racy unlocked read is not modelled; the guarantee
proved here only needs that the writes happen under the mutex).  The state
tracks whether `s.periodic` is non-nil, the mutex holder, and how many
constructions/launches ever happened.
-/

/-- Program counter of one caller inside `PickOutbound`'s scheduler-start
block. -/
inductive DCLPc
  | checkOuter
  | waitLock
  | checkInner
  | setTag
  | setPeriodic
  | goStart
  | unlock
  | done
deriving DecidableEq

/-- Shared state plus every caller's program counter (callers are indexed by
`ℕ`; any number of them may participate). -/
structure DCLState where
  periodic : Bool
  lock : Option ℕ
  constructions : ℕ
  launches : ℕ
  pc : ℕ → DCLPc

/-- All callers about to execute the first `s.periodic == nil` check against a
freshly constructed strategy. -/
def DCLInit : DCLState :=
  { periodic := false, lock := none, constructions := 0, launches := 0
    pc := fun _ => DCLPc.checkOuter }

/-- One atomic step of one caller `t`. -/
inductive DCLStep : DCLState → DCLState → Prop
  | outerHit (c : DCLState) (t : ℕ) (hpc : c.pc t = .checkOuter) (hp : c.periodic = true) :
      DCLStep c { c with pc := Function.update c.pc t .done }
  | outerMiss (c : DCLState) (t : ℕ) (hpc : c.pc t = .checkOuter) (hp : c.periodic = false) :
      DCLStep c { c with pc := Function.update c.pc t .waitLock }
  | acquire (c : DCLState) (t : ℕ) (hpc : c.pc t = .waitLock) (hl : c.lock = none) :
      DCLStep c { c with lock := some t, pc := Function.update c.pc t .checkInner }
  | innerHit (c : DCLState) (t : ℕ) (hpc : c.pc t = .checkInner) (hp : c.periodic = true) :
      DCLStep c { c with pc := Function.update c.pc t .unlock }
  | innerMiss (c : DCLState) (t : ℕ) (hpc : c.pc t = .checkInner) (hp : c.periodic = false) :
      DCLStep c { c with pc := Function.update c.pc t .setTag }
  | stepSetTag (c : DCLState) (t : ℕ) (hpc : c.pc t = .setTag) :
      DCLStep c { c with pc := Function.update c.pc t .setPeriodic }
  | stepSetPeriodic (c : DCLState) (t : ℕ) (hpc : c.pc t = .setPeriodic) :
      DCLStep c
        { c with periodic := true, constructions := c.constructions + 1
                 pc := Function.update c.pc t .goStart }
  | stepGoStart (c : DCLState) (t : ℕ) (hpc : c.pc t = .goStart) :
      DCLStep c { c with launches := c.launches + 1, pc := Function.update c.pc t .unlock }
  | release (c : DCLState) (t : ℕ) (hpc : c.pc t = .unlock) (hl : c.lock = some t) :
      DCLStep c { c with lock := none, pc := Function.update c.pc t .done }

/-- States reachable from the initial configuration by any interleaving. -/
def DCLReach (c : DCLState) : Prop :=
  Relation.ReflTransGen DCLStep DCLInit c

/-- A caller is inside the mutex-protected region. -/
def inCrit : DCLPc → Prop
  | .checkInner => True
  | .setTag => True
  | .setPeriodic => True
  | .goStart => True
  | .unlock => True
  | _ => False

/-- Inductive invariant of the double-checked locking. -/
def DCLInv (c : DCLState) : Prop :=
  c.constructions ≤ 1 ∧
  c.launches ≤ c.constructions ∧
  (c.periodic = true ↔ c.constructions = 1) ∧
  (∀ t, inCrit (c.pc t) → c.lock = some t) ∧
  (∀ t, c.pc t = .setTag ∨ c.pc t = .setPeriodic → c.periodic = false) ∧
  (∀ t, c.pc t = .goStart → c.launches = 0 ∧ c.periodic = true)

/-- C5: `PickOutbound` panics if and only if the candidate set is empty; any
non-empty candidate set yields a normally returned tag (the `PickResult.ok`
constructor), so the empty-set usage error is the only failure a direct caller
can see. -/
theorem c5_pick_panics_iff_empty (s : OptimalStrategy) (obm : String → Bool)
    (tags : List String) :
    (∃ msg, PickOutbound s obm tags = .panicked msg) ↔ tags = [] := by
  constructor
  · rintro ⟨msg, h⟩
    by_contra hne
    have h0 : ¬tags.length = 0 := fun hl => hne (List.length_eq_zero.mp hl)
    unfold PickOutbound at h
    rw [if_neg h0] at h
    dsimp only [] at h
    split at h
    · exact PickResult.noConfusion h
    · split at h <;> exact PickResult.noConfusion h
  · rintro rfl
    exact ⟨"0 tags", rfl⟩

/-- C7: the first `PickOutbound` call (periodic task still nil) with more than
one candidate publishes the first supplied tag and returns it; the periodic
task is constructed with the configured interval, and nothing blocks — the
call returns a fully determined value at once. -/
theorem c7_first_call_publishes_first_tag (s : OptimalStrategy) (obm : String → Bool)
    (tags : List String) (hfresh : s.periodic = none) (h2 : 2 ≤ tags.length) :
    PickOutbound s obm tags =
      .ok tags.headI
        { s with obm := obm, tags := tags, tag := tags.headI,
                 periodic := some ⟨s.interval⟩ } := by
  have h0 : ¬tags.length = 0 := by omega
  have h1 : ¬tags.length = 1 := by omega
  unfold PickOutbound
  rw [if_neg h0, if_neg h1]
  have hp : ({ s with obm := obm, tags := tags } : OptimalStrategy).periodic = none := hfresh
  rw [if_pos hp, if_pos hp]

/-- Witness for C7 at a concrete fresh strategy and two candidates. -/
theorem c7_first_call_publishes_first_tag_witness :
    ∃ s : OptimalStrategy,
      NewOptimalStrategy goURLParse ⟨0, 0, "", 0⟩ = .ok s ∧
      PickOutbound s (fun _ => true) ["a", "b"] =
        .ok "a" { s with obm := fun _ => true, tags := ["a", "b"], tag := "a",
                         periodic := some ⟨s.interval⟩ } := by
  refine ⟨_, rfl, ?_⟩
  exact c7_first_call_publishes_first_tag _ _ ["a", "b"] rfl (by decide)

/-- C1 is a code bug: on a freshly constructed strategy a single-candidate
call returns the stored field `s.tag` — the zero value `""`, not the supplied
tag `"a"` — although the scheduler-untouched half of the claim does hold (the
state, including `periodic = none`, is returned unchanged). -/
theorem c1_single_candidate_returns_stored_tag :
    ∃ s : OptimalStrategy,
      NewOptimalStrategy goURLParse ⟨0, 0, "", 0⟩ = .ok s ∧
      PickOutbound s (fun _ => false) ["a"] = .ok "" s ∧
      s.periodic = none ∧ ("" : String) ≠ "a" := by
  exact ⟨_, rfl, rfl, rfl, by decide⟩

/-- C8: construction, stated for an arbitrary URL parser.  Zero-valued
parameters get the defaults (timeout 5000 ms, interval 600000 ms, probe URL
`https://www.google.com`, trial count 3), non-zero timeout/interval are
milliseconds (stored as nanoseconds), and construction panics exactly when the
supplied URL is non-empty and either fails to parse or parses to a scheme
other than `http`/`https`. -/
theorem c8_constructor_defaults_and_url_validation
    (parse : String → Except String GoURL) (cfg : BalancingOptimalStrategyConfig) :
    ((∃ e, NewOptimalStrategy parse cfg = .error e) ↔
      (cfg.Url ≠ "" ∧ ((∃ e, parse cfg.Url = .error e) ∨
        (∃ u, parse cfg.Url = .ok u ∧ u.scheme ≠ "http" ∧ u.scheme ≠ "https")))) ∧
    (∀ s, NewOptimalStrategy parse cfg = .ok s →
      s.timeout = (if cfg.Timeout = 0 then 5000 * 1000000 else cfg.Timeout * 1000000) ∧
      s.interval = (if cfg.Interval = 0 then 600000 * 1000000 else cfg.Interval * 1000000) ∧
      s.count = (if cfg.Count = 0 then 3 else cfg.Count) ∧
      (cfg.Url = "" → s.url = (parse ("https://www.google.com")).toOption)) := by
  unfold NewOptimalStrategy
  by_cases hurl : cfg.Url = ""
  · rw [if_pos hurl]
    dsimp only []
    constructor
    · simp [hurl]
    · intro s hs
      cases hs
      refine ⟨by norm_num, by norm_num, rfl, fun _ => rfl⟩
  · rw [if_neg hurl]
    dsimp only []
    rcases hp : parse cfg.Url with e | u
    · constructor
      · simp [hurl, hp]
      · intro s hs
        exact Except.noConfusion hs
    · dsimp only []
      by_cases hsch : u.scheme ≠ "http" ∧ u.scheme ≠ "https"
      · rw [if_pos hsch]
        constructor
        · simp only [iff_true_intro hurl, true_and]
          constructor
          · intro _
            exact Or.inr ⟨u, rfl, hsch⟩
          · intro _
            exact ⟨"Only http/https url support", rfl⟩
        · intro s hs
          exact Except.noConfusion hs
      · rw [if_neg hsch]
        constructor
        · constructor
          · rintro ⟨e, he⟩
            exact Except.noConfusion he
          · rintro ⟨-, hbad | ⟨v, hv, hv1, hv2⟩⟩
            · rcases hbad with ⟨e, he⟩
              exact Except.noConfusion he
            · cases hv
              exact absurd ⟨hv1, hv2⟩ hsch
        · intro s hs
          cases hs
          refine ⟨by norm_num, by norm_num, rfl, fun habs => absurd habs hurl⟩

/-- Witness for C8: the all-defaults configuration constructs successfully and
the defaults theorem applies to it. -/
theorem c8_constructor_defaults_and_url_validation_witness :
    ∃ s, NewOptimalStrategy goURLParse ⟨0, 0, "", 0⟩ = .ok s ∧
      (s.timeout = (if (0 : ℕ) = 0 then 5000 * 1000000 else 0 * 1000000) ∧
       s.interval = (if (0 : ℕ) = 0 then 600000 * 1000000 else 0 * 1000000) ∧
       s.count = (if (0 : ℕ) = 0 then 3 else 0) ∧
       ("" = "" → s.url = (goURLParse ("https://www.google.com")).toOption)) := by
  exact ⟨_, rfl,
    (c8_constructor_defaults_and_url_validation goURLParse ⟨0, 0, "", 0⟩).2 _ rfl⟩

/-- `DCLInv` holds initially. -/
theorem dclInv_init : DCLInv DCLInit := by
  refine ⟨by simp [DCLInit], by simp [DCLInit], by simp [DCLInit], ?_, ?_, ?_⟩
  · intro t h
    simp [DCLInit, inCrit] at h
  · intro t h
    rcases h with h | h <;> exact DCLPc.noConfusion h
  · intro t h
    exact DCLPc.noConfusion h

/-- `DCLInv` is preserved by every step of every caller. -/
theorem dclInv_step {c c' : DCLState} (hstep : DCLStep c c') (hinv : DCLInv c) : DCLInv c' := by
  obtain ⟨h1, h2, h3, h4, h5, h6⟩ := hinv
  cases hstep with
  | outerHit t hpc hp =>
    refine ⟨h1, h2, h3, ?_, ?_, ?_⟩ <;> intro u hu <;>
        simp only [Function.update_apply] at hu <;> by_cases hut : u = t
    · rw [if_pos hut] at hu
      exact absurd hu (by simp [inCrit])
    · rw [if_neg hut] at hu
      exact h4 u hu
    · rw [if_pos hut] at hu
      rcases hu with hu | hu <;> exact DCLPc.noConfusion hu
    · rw [if_neg hut] at hu
      exact h5 u hu
    · rw [if_pos hut] at hu
      exact DCLPc.noConfusion hu
    · rw [if_neg hut] at hu
      exact h6 u hu
  | outerMiss t hpc hp =>
    refine ⟨h1, h2, h3, ?_, ?_, ?_⟩ <;> intro u hu <;>
        simp only [Function.update_apply] at hu <;> by_cases hut : u = t
    · rw [if_pos hut] at hu
      exact absurd hu (by simp [inCrit])
    · rw [if_neg hut] at hu
      exact h4 u hu
    · rw [if_pos hut] at hu
      rcases hu with hu | hu <;> exact DCLPc.noConfusion hu
    · rw [if_neg hut] at hu
      exact h5 u hu
    · rw [if_pos hut] at hu
      exact DCLPc.noConfusion hu
    · rw [if_neg hut] at hu
      exact h6 u hu
  | acquire t hpc hl =>
    refine ⟨h1, h2, h3, ?_, ?_, ?_⟩ <;> intro u hu <;>
        simp only [Function.update_apply] at hu <;> by_cases hut : u = t
    · rw [hut]
    · rw [if_neg hut] at hu
      have hcontra := h4 u hu
      rw [hl] at hcontra
      exact Option.noConfusion hcontra
    · rw [if_pos hut] at hu
      rcases hu with hu | hu <;> exact DCLPc.noConfusion hu
    · rw [if_neg hut] at hu
      exact h5 u hu
    · rw [if_pos hut] at hu
      exact DCLPc.noConfusion hu
    · rw [if_neg hut] at hu
      exact h6 u hu
  | innerHit t hpc hp =>
    refine ⟨h1, h2, h3, ?_, ?_, ?_⟩ <;> intro u hu <;>
        simp only [Function.update_apply] at hu <;> by_cases hut : u = t
    · rw [hut]
      exact h4 t (by rw [hpc]; trivial)
    · rw [if_neg hut] at hu
      exact h4 u hu
    · rw [if_pos hut] at hu
      rcases hu with hu | hu <;> exact DCLPc.noConfusion hu
    · rw [if_neg hut] at hu
      exact h5 u hu
    · rw [if_pos hut] at hu
      exact DCLPc.noConfusion hu
    · rw [if_neg hut] at hu
      exact h6 u hu
  | innerMiss t hpc hp =>
    refine ⟨h1, h2, h3, ?_, ?_, ?_⟩ <;> intro u hu <;>
        simp only [Function.update_apply] at hu <;> by_cases hut : u = t
    · rw [hut]
      exact h4 t (by rw [hpc]; trivial)
    · rw [if_neg hut] at hu
      exact h4 u hu
    · exact hp
    · exact hp
    · rw [if_pos hut] at hu
      exact DCLPc.noConfusion hu
    · rw [if_neg hut] at hu
      exact h6 u hu
  | stepSetTag t hpc =>
    refine ⟨h1, h2, h3, ?_, ?_, ?_⟩ <;> intro u hu <;>
        simp only [Function.update_apply] at hu <;> by_cases hut : u = t
    · rw [hut]
      exact h4 t (by rw [hpc]; trivial)
    · rw [if_neg hut] at hu
      exact h4 u hu
    · exact h5 t (Or.inl hpc)
    · exact h5 t (Or.inl hpc)
    · rw [if_pos hut] at hu
      exact DCLPc.noConfusion hu
    · rw [if_neg hut] at hu
      exact h6 u hu
  | stepSetPeriodic t hpc =>
    have hper : c.periodic = false := h5 t (Or.inr hpc)
    have hc0 : c.constructions = 0 := by
      rcases Nat.eq_zero_or_pos c.constructions with h0 | hpos
      · exact h0
      · exfalso
        have hpt : c.periodic = true := h3.mpr (by omega)
        rw [hper] at hpt
        exact Bool.noConfusion hpt
    have hlockt : c.lock = some t := h4 t (by rw [hpc]; trivial)
    refine ⟨by dsimp only; omega, by dsimp only; omega, by dsimp only; simp [hc0], ?_, ?_, ?_⟩ <;>
        intro u hu <;>
        simp only [Function.update_apply] at hu <;> by_cases hut : u = t
    · rw [hut]
      exact hlockt
    · rw [if_neg hut] at hu
      exact h4 u hu
    · rw [if_pos hut] at hu
      rcases hu with hu | hu <;> exact DCLPc.noConfusion hu
    · rw [if_neg hut] at hu
      exfalso
      have hlocku := h4 u (by rcases hu with hu | hu <;> rw [hu] <;> trivial)
      rw [hlockt] at hlocku
      exact hut (Option.some.inj hlocku).symm
    · rw [if_pos hut] at hu
      refine ⟨by dsimp only; omega, rfl⟩
    · rw [if_neg hut] at hu
      exfalso
      have hlocku := h4 u (by rw [hu]; trivial)
      rw [hlockt] at hlocku
      exact hut (Option.some.inj hlocku).symm
  | stepGoStart t hpc =>
    have hl0 : c.launches = 0 := (h6 t hpc).1
    have hper : c.periodic = true := (h6 t hpc).2
    have hc1 : c.constructions = 1 := h3.mp hper
    have hlockt : c.lock = some t := h4 t (by rw [hpc]; trivial)
    refine ⟨h1, by dsimp only; omega, h3, ?_, ?_, ?_⟩ <;> intro u hu <;>
        simp only [Function.update_apply] at hu <;> by_cases hut : u = t
    · rw [hut]
      exact hlockt
    · rw [if_neg hut] at hu
      exact h4 u hu
    · rw [if_pos hut] at hu
      rcases hu with hu | hu <;> exact DCLPc.noConfusion hu
    · rw [if_neg hut] at hu
      have hpf := h5 u hu
      rw [hper] at hpf
      exact Bool.noConfusion hpf
    · rw [if_pos hut] at hu
      exact DCLPc.noConfusion hu
    · rw [if_neg hut] at hu
      exfalso
      have hlocku := h4 u (by rw [hu]; trivial)
      rw [hlockt] at hlocku
      exact hut (Option.some.inj hlocku).symm
  | release t hpc hl =>
    refine ⟨h1, h2, h3, ?_, ?_, ?_⟩ <;> intro u hu <;>
        simp only [Function.update_apply] at hu <;> by_cases hut : u = t
    · rw [if_pos hut] at hu
      exact absurd hu (by simp [inCrit])
    · rw [if_neg hut] at hu
      exfalso
      have hlocku := h4 u hu
      rw [hl] at hlocku
      exact hut (Option.some.inj hlocku).symm
    · rw [if_pos hut] at hu
      rcases hu with hu | hu <;> exact DCLPc.noConfusion hu
    · rw [if_neg hut] at hu
      exact h5 u hu
    · rw [if_pos hut] at hu
      exact DCLPc.noConfusion hu
    · rw [if_neg hut] at hu
      exact h6 u hu

/-- Every reachable configuration satisfies the invariant. -/
theorem dclInv_reach {c : DCLState} (h : DCLReach c) : DCLInv c := by
  induction h with
  | refl => exact dclInv_init
  | tail _ hstep ih => exact dclInv_step hstep ih

/-- C9: under any interleaving of any number of concurrent first callers, the
double-checked locking constructs at most one periodic task and launches at
most one background loop. -/
theorem c9_scheduler_started_at_most_once (c : DCLState) (h : DCLReach c) :
    c.constructions ≤ 1 ∧ c.launches ≤ 1 := by
  obtain ⟨h1, h2, -⟩ := dclInv_reach h
  exact ⟨h1, le_trans h2 h1⟩

/-- Witness for C9 at the initial configuration. -/
theorem c9_scheduler_started_at_most_once_witness :
    DCLInit.constructions ≤ 1 ∧ DCLInit.launches ≤ 1 :=
  c9_scheduler_started_at_most_once DCLInit Relation.ReflTransGen.refl

/-- The single aggregation pass splits into separate min, max and sum folds. -/
theorem aggFold_eq (l : List ℚ) (m M s : ℚ) :
    l.foldl aggStep (m, M, s) =
      (l.foldl (fun a x => if x < a then x else a) m,
       l.foldl (fun a x => if a < x then x else a) M,
       l.foldl (· + ·) s) := by
  induction l generalizing m M s with
  | nil => rfl
  | cons x xs ih => simpa only [List.foldl_cons, aggStep] using ih _ _ _

/-- The running-minimum update is `min`. -/
theorem if_min_eq (a x : ℚ) : (if x < a then x else a) = min a x := by
  rcases lt_or_ge x a with h | h
  · rw [if_pos h, min_eq_right h.le]
  · rw [if_neg (not_lt.mpr h), min_eq_left h]

/-- The running-maximum update is `max`. -/
theorem if_max_eq (a x : ℚ) : (if a < x then x else a) = max a x := by
  rcases lt_or_ge a x with h | h
  · rw [if_pos h, max_eq_right h.le]
  · rw [if_neg (not_lt.mpr h), max_eq_left h]

/-- A `min`-fold is below its seed and below every element. -/
theorem foldl_min_le (l : List ℚ) (m : ℚ) :
    l.foldl min m ≤ m ∧ ∀ x ∈ l, l.foldl min m ≤ x := by
  induction l generalizing m with
  | nil => exact ⟨le_refl m, fun x hx => absurd hx (List.not_mem_nil x)⟩
  | cons y ys ih =>
    obtain ⟨ih1, ih2⟩ := ih (min m y)
    refine ⟨le_trans ih1 (min_le_left m y), ?_⟩
    intro x hx
    rcases List.mem_cons.mp hx with rfl | hx
    · exact le_trans ih1 (min_le_right m x)
    · exact ih2 x hx

/-- A `min`-fold returns its seed or an element. -/
theorem foldl_min_mem (l : List ℚ) (m : ℚ) :
    l.foldl min m = m ∨ l.foldl min m ∈ l := by
  induction l generalizing m with
  | nil => exact Or.inl rfl
  | cons y ys ih =>
    rcases ih (min m y) with h | h
    · rcases le_total m y with hmy | hym
      · rw [List.foldl_cons, h, min_eq_left hmy]
        exact Or.inl rfl
      · rw [List.foldl_cons, h, min_eq_right hym]
        exact Or.inr (List.mem_cons_self y ys)
    · exact Or.inr (List.mem_cons_of_mem y h)

/-- A `max`-fold is above its seed and above every element. -/
theorem foldl_max_ge (l : List ℚ) (M : ℚ) :
    M ≤ l.foldl max M ∧ ∀ x ∈ l, x ≤ l.foldl max M := by
  induction l generalizing M with
  | nil => exact ⟨le_refl M, fun x hx => absurd hx (List.not_mem_nil x)⟩
  | cons y ys ih =>
    obtain ⟨ih1, ih2⟩ := ih (max M y)
    refine ⟨le_trans (le_max_left M y) ih1, ?_⟩
    intro x hx
    rcases List.mem_cons.mp hx with rfl | hx
    · exact le_trans (le_max_right M x) ih1
    · exact ih2 x hx

/-- A `max`-fold returns its seed or an element. -/
theorem foldl_max_mem (l : List ℚ) (M : ℚ) :
    l.foldl max M = M ∨ l.foldl max M ∈ l := by
  induction l generalizing M with
  | nil => exact Or.inl rfl
  | cons y ys ih =>
    rcases ih (max M y) with h | h
    · rcases le_total y M with hym | hmy
      · rw [List.foldl_cons, h, max_eq_left hym]
        exact Or.inl rfl
      · rw [List.foldl_cons, h, max_eq_right hmy]
        exact Or.inr (List.mem_cons_self y ys)
    · exact Or.inr (List.mem_cons_of_mem y h)

/-- Folding `+` from a seed adds the list sum. -/
theorem foldl_add_eq (l : List ℚ) (s : ℚ) : l.foldl (· + ·) s = s + l.sum := by
  induction l generalizing s with
  | nil => simp
  | cons x xs ih =>
    rw [List.foldl_cons, ih (s + x), List.sum_cons, add_assoc]

/-- C10: for a non-empty list of nonnegative trial scores whose length is the
configured trial count, the aggregation of `testOutboud` is nonnegative — the
mean of nonnegative values for fewer than 3 trials, and otherwise a value at
least `(sum - min - max) / (count - 2) ≥ 0` (the sentinel can only make the
subtracted minimum smaller). -/
theorem c10_aggregate_nonneg (count : ℕ) (scores : List ℚ) (hne : scores ≠ [])
    (hlen : scores.length = count) (hpos : ∀ x ∈ scores, 0 ≤ x) :
    0 ≤ aggregateScore count scores := by
  unfold aggregateScore
  rw [aggFold_eq]
  simp only [if_min_eq, if_max_eq]
  split
  · apply div_nonneg
    · rw [foldl_add_eq, zero_add]
      exact List.sum_nonneg hpos
    · exact Nat.cast_nonneg _
  · rename_i hge
    apply div_nonneg
    · rw [foldl_add_eq, zero_add]
      set mn := scores.foldl min ((2 : ℚ) ^ 63) with hmn
      set mx := scores.foldl max (-(2 : ℚ) ^ 63) with hmx
      have hmxmem : mx ∈ scores := by
        rcases foldl_max_mem scores (-(2 : ℚ) ^ 63) with h | h
        · exfalso
          obtain ⟨y, hy⟩ := List.exists_mem_of_ne_nil scores hne
          have h1 : y ≤ mx := (foldl_max_ge scores (-(2 : ℚ) ^ 63)).2 y hy
          have h2 : (0 : ℚ) ≤ y := hpos y hy
          rw [hmx, h] at h1
          have : (0 : ℚ) < 2 ^ 63 := by positivity
          linarith
        · exact h
      have hperm : scores.Perm (mx :: scores.erase mx) := List.perm_cons_erase hmxmem
      have hsum : scores.sum = mx + (scores.erase mx).sum := by
        rw [hperm.sum_eq, List.sum_cons]
      have hlen3 : 3 ≤ scores.length := by omega
      have herasene : scores.erase mx ≠ [] := by
        intro habs
        have := hperm.length_eq
        rw [habs] at this
        simp at this
        omega
      obtain ⟨a, ha⟩ := List.exists_mem_of_ne_nil _ herasene
      have hasc : a ∈ scores := List.mem_of_mem_erase ha
      have hmin_a : mn ≤ a := (foldl_min_le scores ((2 : ℚ) ^ 63)).2 a hasc
      have hsum_a : a ≤ (scores.erase mx).sum := by
        apply List.single_le_sum _ a ha
        intro x hx
        exact hpos x (List.mem_of_mem_erase hx)
      linarith
    · exact Nat.cast_nonneg _

/-- Witness for C10 on the spec's own example scores. -/
theorem c10_aggregate_nonneg_witness : 0 ≤ aggregateScore 3 [1, 5, 9] :=
  c10_aggregate_nonneg 3 [1, 5, 9] (by decide) (by decide)
    (by intro x hx; fin_cases hx <;> norm_num)

/-- When the seed bounds every element from above, the `min`-fold computes the
genuine minimum of a non-empty list. -/
theorem foldl_min_eq_getD (l : List ℚ) (m : ℚ) (hne : l ≠ [])
    (hbound : ∀ x ∈ l, x ≤ m) : l.foldl min m = l.min?.getD 0 := by
  obtain ⟨x, xs, rfl⟩ := List.exists_cons_of_ne_nil hne
  have hmin? : (x :: xs).min? = some (xs.foldl min x) := rfl
  rw [hmin?, Option.getD_some]
  have hvmem : xs.foldl min x ∈ x :: xs := by
    rcases foldl_min_mem xs x with h | h
    · rw [h]
      exact List.mem_cons_self x xs
    · exact List.mem_cons_of_mem x h
  apply le_antisymm
  · exact (foldl_min_le (x :: xs) m).2 _ hvmem
  · rcases foldl_min_mem (x :: xs) m with h | h
    · rw [h]
      exact hbound _ hvmem
    · obtain ⟨hvx, hvxs⟩ := foldl_min_le xs x
      rcases List.mem_cons.mp h with heq | hmem
      · rw [heq]
        exact hvx
      · exact hvxs _ hmem

/-- When the seed bounds every element from below, the `max`-fold computes the
genuine maximum of a non-empty list. -/
theorem foldl_max_eq_getD (l : List ℚ) (M : ℚ) (hne : l ≠ [])
    (hbound : ∀ x ∈ l, M ≤ x) : l.foldl max M = l.max?.getD 0 := by
  obtain ⟨x, xs, rfl⟩ := List.exists_cons_of_ne_nil hne
  have hmax? : (x :: xs).max? = some (xs.foldl max x) := rfl
  rw [hmax?, Option.getD_some]
  have hvmem : xs.foldl max x ∈ x :: xs := by
    rcases foldl_max_mem xs x with h | h
    · rw [h]
      exact List.mem_cons_self x xs
    · exact List.mem_cons_of_mem x h
  apply le_antisymm
  · rcases foldl_max_mem (x :: xs) M with h | h
    · rw [h]
      exact hbound _ hvmem
    · obtain ⟨hvx, hvxs⟩ := foldl_max_ge xs x
      rcases List.mem_cons.mp h with heq | hmem
      · rw [heq]
        exact hvx
      · exact hvxs _ hmem
  · exact (foldl_max_ge (x :: xs) M).2 _ hvmem

/-- `uint32` subtraction agrees with truncation-free subtraction inside the
`uint32` range. -/
theorem sub32_eq (count : ℕ) (h2 : 2 ≤ count) (hlt : count < 2 ^ 32) :
    sub32 count 2 = count - 2 := by
  unfold sub32
  omega

/-- C3, corrected for the sentinels: while every trial score stays within
`[0, 2^63]` — `float64(math.MaxInt64)` being the sentinel initial minimum —
the aggregation of `testOutboud` equals the spec's trimmed mean (plain mean
below 3 trials, otherwise one genuine minimum and one genuine maximum removed
and the rest divided by `count - 2`).  The spec's examples `[1,5,9] ↦ 5` and
`[2,2] ↦ 2` fall inside this range; scores above `2^63` do not (see the
counterexample). -/
theorem c3_trimmed_mean_amended (count : ℕ) (scores : List ℚ) (hne : scores ≠ [])
    (hlen : scores.length = count) (hcount : count < 2 ^ 32)
    (hbound : ∀ x ∈ scores, 0 ≤ x ∧ x ≤ 2 ^ 63) :
    aggregateScore count scores = specAggregate count scores := by
  unfold aggregateScore specAggregate
  rw [aggFold_eq]
  simp only [if_min_eq, if_max_eq]
  split
  · rw [foldl_add_eq, zero_add]
  · rename_i hge
    have h3 : 3 ≤ count := by omega
    rw [foldl_add_eq, zero_add,
      foldl_min_eq_getD scores _ hne (fun x hx => (hbound x hx).2),
      foldl_max_eq_getD scores _ hne
        (fun x hx => le_trans (by norm_num) (hbound x hx).1),
      sub32_eq count (by omega) hcount]
    have hcast : ((count - 2 : ℕ) : ℚ) = (count : ℚ) - 2 := by
      rw [Nat.cast_sub (by omega)]
      norm_num
    rw [hcast]

/-- Witness for C3 on the spec's two worked examples. -/
theorem c3_trimmed_mean_amended_witness :
    aggregateScore 3 [1, 5, 9] = specAggregate 3 [1, 5, 9] ∧
    specAggregate 3 [1, 5, 9] = 5 ∧ aggregateScore 2 [2, 2] = 2 := by
  refine ⟨c3_trimmed_mean_amended 3 [1, 5, 9] (by decide) (by decide) (by norm_num)
      (by intro x hx; fin_cases hx <;> norm_num),
    by norm_num [specAggregate, List.min?, List.max?, min_def, max_def],
    by norm_num [aggregateScore, aggStep]⟩

/-- Counterexample to C3 as stated: three equal trial scores `2^64` exceed the
minimum sentinel `float64(math.MaxInt64) = 2^63`, so the code subtracts the
sentinel instead of the true minimum and aggregates to `3 * 2^63`, while the
claimed `(sum - min - max) / (count - 2)` is `2^64`. -/
theorem c3_sentinel_counterexample :
    aggregateScore 3 [2 ^ 64, 2 ^ 64, 2 ^ 64] = 3 * 2 ^ 63 ∧
    (([2 ^ 64, 2 ^ 64, 2 ^ 64] : List ℚ).sum - 2 ^ 64 - 2 ^ 64) / ((3 : ℚ) - 2) = 2 ^ 64 ∧
    (3 * 2 ^ 63 : ℚ) ≠ 2 ^ 64 := by
  refine ⟨by norm_num [aggregateScore, aggStep, sub32], by norm_num, by norm_num⟩

theorem splitOn_ne_nil10 (r : List ℕ) : r.splitOn 10 ≠ [] :=
  List.splitOnP_ne_nil _ r

theorem splitOn_cons10 (r : List ℕ) : (10 :: r).splitOn 10 = [] :: r.splitOn 10 := by
  simp [List.splitOn, List.splitOnP_cons]

theorem splitOn_cons_ne (x : ℕ) (r : List ℕ) (hx : x ≠ 10) :
    (x :: r).splitOn 10 = (x :: (r.splitOn 10).headI) :: (r.splitOn 10).tail := by
  rw [List.splitOn, List.splitOnP_cons]
  simp only [beq_iff_eq, hx, if_false]
  obtain ⟨p, ps, hp⟩ := List.exists_cons_of_ne_nil (List.splitOnP_ne_nil _ r)
  rw [List.splitOn] at *
  rw [hp]
  rfl

theorem dropCR_cons_length (x : ℕ) (t : List ℕ) (ht : t ≠ []) :
    (dropCR (x :: t)).length = (dropCR t).length + 1 := by
  have hlast : (x :: t).getLast? = t.getLast? := by
    obtain ⟨y, ys, rfl⟩ := List.exists_cons_of_ne_nil ht
    rfl
  have hpos : 1 ≤ t.length := List.length_pos.mpr ht
  unfold dropCR
  rw [hlast]
  split
  · rw [List.length_dropLast, List.length_dropLast, List.length_cons]
    omega
  · rw [List.length_cons]

theorem fullScanCount_cons10 (r : List ℕ) : fullScanCount (10 :: r) = fullScanCount r := by
  rw [fullScanCount, fullScanCount, splitOn_cons10]
  simp [dropCR]

theorem fullScanCount_cons_ne (x : ℕ) (r : List ℕ) (hx10 : x ≠ 10) (hx13 : x ≠ 13) :
    fullScanCount (x :: r) = fullScanCount r + 1 := by
  obtain ⟨p, ps, hp⟩ := List.exists_cons_of_ne_nil (splitOn_ne_nil10 r)
  rw [fullScanCount, fullScanCount, splitOn_cons_ne x r hx10, hp]
  simp only [List.headI, List.tail_cons, List.map_cons, List.sum_cons]
  rcases eq_or_ne p [] with rfl | hpne
  · simp [dropCR, hx13]
    omega
  · rw [dropCR_cons_length x p hpne]
    omega

theorem fullScanCount_cons13_cons10 (r : List ℕ) :
    fullScanCount (13 :: 10 :: r) = fullScanCount r := by
  rw [fullScanCount, fullScanCount, splitOn_cons_ne 13 (10 :: r) (by norm_num), splitOn_cons10]
  simp [dropCR]

theorem fullScanCount_cons13_ne (y : ℕ) (r : List ℕ) (hy : y ≠ 10) :
    fullScanCount (13 :: y :: r) = fullScanCount (y :: r) + 1 := by
  obtain ⟨p, ps, hp⟩ := List.exists_cons_of_ne_nil (splitOn_ne_nil10 r)
  rw [fullScanCount, fullScanCount, splitOn_cons_ne 13 (y :: r) (by norm_num),
    splitOn_cons_ne y r hy, hp]
  dsimp only [List.headI, List.tail_cons]
  simp only [List.map_cons, List.sum_cons]
  rw [dropCR_cons_length 13 (y :: p) (List.cons_ne_nil _ _)]
  omega

theorem termBytes_cons13_ne (y : ℕ) (r : List ℕ) (hy : y ≠ 10) :
    termBytes (13 :: y :: r) = termBytes (y :: r) := by
  simp [termBytes, hy]

theorem termBytes_other (x : ℕ) (r : List ℕ) (hx10 : x ≠ 10) (hx13 : x ≠ 13) :
    termBytes (x :: r) = termBytes r := by
  simp [termBytes, hx10, hx13]

theorem fullScanCount_add_termBytes (body : List ℕ) :
    fullScanCount body + termBytes body = body.length := by
  generalize hn : body.length = n
  induction n using Nat.strong_induction_on generalizing body with
  | _ n ih =>
    subst hn
    rcases body with _ | ⟨x, rest⟩
    · rfl
    · by_cases hx10 : x = 10
      · subst hx10
        rw [fullScanCount_cons10, show termBytes (10 :: rest) = 1 + termBytes rest from rfl]
        have hrec := ih rest.length (by simp) rest rfl
        rw [List.length_cons]
        omega
      · by_cases hx13 : x = 13
        · subst hx13
          rcases rest with _ | ⟨y, rest'⟩
          · rfl
          · by_cases hy : y = 10
            · subst hy
              rw [fullScanCount_cons13_cons10,
                show termBytes (13 :: 10 :: rest') = 2 + termBytes rest' from rfl]
              have hrec := ih rest'.length (by simp; omega) rest' rfl
              simp only [List.length_cons]
              omega
            · rw [fullScanCount_cons13_ne y rest' hy, termBytes_cons13_ne y rest' hy]
              have hrec := ih (y :: rest').length (by simp) (y :: rest') rfl
              simp only [List.length_cons] at hrec ⊢
              omega
        · rw [fullScanCount_cons_ne x rest hx10 hx13, termBytes_other x rest hx10 hx13]
          have hrec := ih rest.length (by simp) rest rfl
          rw [List.length_cons]
          omega

/-- Without an oversized line, the capped scan count is the full sum of
`dropCR`-trimmed line lengths. -/
theorem scanLinesCount_of_short (ls : List (List ℕ))
    (h : ∀ line ∈ ls, line.length < maxScanTokenSize) :
    scanLinesCount ls = (ls.map (fun t => (dropCR t).length)).sum := by
  induction ls with
  | nil => rfl
  | cons line rest ih =>
    rw [scanLinesCount, if_pos (h line (List.mem_cons_self line rest)), List.map_cons,
      List.sum_cons, ih (fun x hx => h x (List.mem_cons_of_mem line hx))]

/-- On a body all of whose lines fit the scanner buffer, the scan loop counts
every line. -/
theorem contentSize_of_short (body : List ℕ)
    (h : ∀ line ∈ body.splitOn 10, line.length < maxScanTokenSize) :
    contentSize body = fullScanCount body := by
  unfold contentSize fullScanCount
  exact scanLinesCount_of_short _ h

/-- A run of `97` bytes contributes no line-terminator bytes. -/
theorem termBytes_replicate97_append : ∀ (n : ℕ) (rest : List ℕ),
    termBytes (List.replicate n 97 ++ rest) = termBytes rest
  | 0, _ => rfl
  | n + 1, rest => by
    rw [List.replicate_succ, List.cons_append,
      termBytes_other 97 _ (by norm_num) (by norm_num), termBytes_replicate97_append n rest]

/-- The scan loop aborts at an oversized line: a body whose first line already
fills the 64 KiB buffer counts nothing (`Scan` fails with `ErrTooLong` before
any token is produced), even though the terminator-discounting formula would
count `maxScanTokenSize + 1` bytes for this body. -/
theorem contentSize_stops_at_long_line :
    contentSize (List.replicate maxScanTokenSize 97 ++ 10 :: [98]) = 0 ∧
    (List.replicate maxScanTokenSize 97 ++ 10 :: [98]).length -
      termBytes (List.replicate maxScanTokenSize 97 ++ 10 :: [98]) = maxScanTokenSize + 1 := by
  have hsplit : (List.replicate maxScanTokenSize 97 ++ 10 :: [98]).splitOn 10 =
      List.replicate maxScanTokenSize 97 :: ([98] : List ℕ).splitOn 10 := by
    rw [List.splitOn, List.splitOn, List.splitOnP_first]
    · intro x hx
      rw [List.eq_of_mem_replicate hx]
      decide
    · decide
  constructor
  · unfold contentSize
    rw [hsplit, scanLinesCount,
      if_neg (by rw [List.length_replicate]; exact lt_irrefl _)]
  · rw [termBytes_replicate97_append, List.length_append, List.length_replicate,
      show termBytes (10 :: [98]) = 1 from rfl]
    simp only [List.length_cons, List.length_nil]
    omega

/-- C4, corrected for the scanner: provided every line of the body (segment
between `\n` bytes) is shorter than the scanner's 64 KiB token cap — so the
scan loop never aborts with `ErrTooLong` — the per-trial score of a
successful probe divides not the full body byte count but the body length
minus its line-terminator bytes (each `\n`, each `\r` directly before a
`\n`, and a lone trailing `\r`), falling back to `100 / elapsed-seconds`
when that count is zero.  First conjunct: under the same cap hypothesis, the
scanner count plus terminator bytes is exactly the body length.  (A body with
an oversized line is counted only up to that line: see
`contentSize_stops_at_long_line`.) -/
theorem c4_success_score_formula (body : List ℕ) (elapsedNs : ℕ)
    (hshort : ∀ line ∈ body.splitOn 10, line.length < maxScanTokenSize) :
    contentSize body + termBytes body = body.length ∧
    trialScore (.success body elapsedNs) =
      (if body.length - termBytes body ≠ 0
       then ((body.length - termBytes body : ℕ) : ℚ) / ((elapsedNs : ℚ) / 1000000000)
       else 100 / ((elapsedNs : ℚ) / 1000000000)) := by
  have hfull := fullScanCount_add_termBytes body
  have heq := contentSize_of_short body hshort
  have h : contentSize body + termBytes body = body.length := by omega
  have hcs : contentSize body = body.length - termBytes body := by omega
  refine ⟨h, ?_⟩
  simp only [trialScore]
  rw [hcs]

/-- Witness for C4 on the 5-byte two-line body over one second. -/
theorem c4_success_score_formula_witness :
    contentSize [97, 98, 10, 99, 100] + termBytes [97, 98, 10, 99, 100] =
      ([97, 98, 10, 99, 100] : List ℕ).length ∧
    trialScore (.success [97, 98, 10, 99, 100] 1000000000) =
      (if ([97, 98, 10, 99, 100] : List ℕ).length - termBytes [97, 98, 10, 99, 100] ≠ 0
       then ((([97, 98, 10, 99, 100] : List ℕ).length - termBytes [97, 98, 10, 99, 100] : ℕ) : ℚ)
         / ((1000000000 : ℚ) / 1000000000)
       else 100 / ((1000000000 : ℚ) / 1000000000)) :=
  c4_success_score_formula [97, 98, 10, 99, 100] 1000000000 (by decide)

/-- Counterexample to C4 as stated: the 5-byte body `"ab\ncd"` takes one
second, so the claimed score (full body bytes over elapsed seconds) is 5,
but the code scores 4 — the `\n` byte is dropped by the scanner. -/
theorem c4_newline_bytes_counterexample :
    trialScore (.success [97, 98, 10, 99, 100] 1000000000) = 4 ∧
    ([97, 98, 10, 99, 100] : List ℕ).length = 5 ∧
    (5 : ℚ) / ((1000000000 : ℚ) / 1000000000) = 5 ∧ (4 : ℚ) ≠ 5 := by
  have hcs : contentSize [97, 98, 10, 99, 100] = 4 := by decide
  refine ⟨?_, by decide, by norm_num, by norm_num⟩
  simp only [trialScore, hcs]
  norm_num

section GoSortLemmas

variable {α : Type} (cmp : α → α → Bool) (d : α)

/-- `swapL` preserves the length. -/
theorem swapL_length (l : List α) (i j : ℕ) : (swapL l i j).length = l.length := by
  unfold swapL
  split
  · simp
  · rfl

/-- Setting an index to the value it already holds is the identity. -/
theorem set_get?_self : ∀ (l : List α) (i : ℕ) (x : α), l.get? i = some x → l.set i x = l
  | [], _, _, h => by simp at h
  | a :: as, 0, x, h => by
    simp only [List.get?_cons_zero, Option.some.injEq] at h
    rw [List.set_cons_zero, h]
  | a :: as, i + 1, x, h => by
    simp only [List.get?_cons_succ] at h
    rw [List.set_cons_succ, set_get?_self as i x h]

/-- Swapping an index with itself is the identity. -/
theorem swapL_self (l : List α) (i : ℕ) : swapL l i i = l := by
  unfold swapL
  split
  · rename_i x y hx hy
    rw [hx] at hy
    cases hy
    rw [List.set_set]
    exact set_get?_self l i x hx
  · rfl

theorem medianOfThree_length (l : List α) (m1 m0 m2 : ℕ) :
    (medianOfThree cmp d l m1 m0 m2).length = l.length := by
  unfold medianOfThree
  dsimp only
  split_ifs <;> simp [swapL_length]

theorem partLoop_length (pivot : ℕ) : ∀ (fuel : ℕ) (l : List α) (b c : ℕ),
    (partLoop cmp d pivot fuel l b c).1.length = l.length
  | 0, _, _, _ => rfl
  | fuel + 1, l, b, c => by
    unfold partLoop
    dsimp only
    split
    · rfl
    · rw [partLoop_length pivot fuel _ _ _, swapL_length]

theorem protLoop_length (pivot : ℕ) : ∀ (fuel : ℕ) (l : List α) (a b : ℕ),
    (protLoop cmp d pivot fuel l a b).1.length = l.length
  | 0, _, _, _ => rfl
  | fuel + 1, l, a, b => by
    unfold protLoop
    dsimp only
    split
    · rfl
    · rw [protLoop_length pivot fuel _ _ _, swapL_length]

theorem dupsStep1_length (pivot hi : ℕ) (t : List α × ℕ × ℕ × ℕ) :
    (dupsStep1 cmp d pivot hi t).1.length = t.1.length := by
  unfold dupsStep1
  split
  · exact swapL_length t.1 _ _
  · rfl

theorem dupsStep2_length (pivot : ℕ) (t : List α × ℕ × ℕ × ℕ) :
    (dupsStep2 cmp d pivot t).1.length = t.1.length := by
  unfold dupsStep2
  split <;> rfl

theorem dupsStep3_length (m pivot : ℕ) (t : List α × ℕ × ℕ × ℕ) :
    (dupsStep3 cmp d m pivot t).1.length = t.1.length := by
  unfold dupsStep3
  split
  · exact swapL_length t.1 _ _
  · rfl

theorem doPivotProtect_length (pivot hi : ℕ) (t : List α × ℕ × ℕ × ℕ × Bool) :
    (doPivotProtect cmp d pivot hi t).1.length = t.1.length := by
  unfold doPivotProtect
  dsimp only
  split
  · rw [swapL_length, protLoop_length]
  · rw [swapL_length]

theorem doPivotTail_length (m pivot lo hi : ℕ) (t : List α × ℕ × ℕ × ℕ) :
    (doPivotTail cmp d m pivot lo hi t).1.length = t.1.length := by
  unfold doPivotTail
  dsimp only
  split
  · rw [doPivotProtect_length]
    dsimp only
    rw [dupsStep3_length, dupsStep2_length, dupsStep1_length]
  · rw [doPivotProtect_length]

theorem doPivot_length (l : List α) (lo hi : ℕ) :
    (doPivot cmp d l lo hi).1.length = l.length := by
  unfold doPivot
  dsimp only
  rw [doPivotTail_length]
  dsimp only
  rw [partLoop_length, medianOfThree_length]
  split
  · simp [medianOfThree_length]
  · rfl

theorem shellPass_length : ∀ (fuel : ℕ) (l : List α) (i b : ℕ),
    (shellPass cmp d fuel l i b).length = l.length
  | 0, _, _, _ => rfl
  | fuel + 1, l, i, b => by
    unfold shellPass
    split
    · rw [shellPass_length fuel]
      split <;> simp [swapL_length]
    · rfl

theorem insInner_length (a : ℕ) : ∀ (l : List α) (j : ℕ),
    (insInner cmp d a l j).length = l.length
  | _, 0 => rfl
  | l, j + 1 => by
    unfold insInner
    split
    · rw [insInner_length a _ j, swapL_length]
    · rfl

theorem insLoop_length (a : ℕ) : ∀ (fuel : ℕ) (l : List α) (i b : ℕ),
    (insLoop cmp d a fuel l i b).length = l.length
  | 0, _, _, _ => rfl
  | fuel + 1, l, i, b => by
    unfold insLoop
    split
    · rw [insLoop_length a fuel, insInner_length]
    · rfl

theorem insertionSortGo_length (l : List α) (a b : ℕ) :
    (insertionSortGo cmp d l a b).length = l.length :=
  insLoop_length cmp d a b l (a + 1) b

theorem siftDownGo_length : ∀ (fuel : ℕ) (l : List α) (root hi first : ℕ),
    (siftDownGo cmp d fuel l root hi first).length = l.length
  | 0, _, _, _, _ => rfl
  | fuel + 1, l, root, hi, first => by
    unfold siftDownGo
    dsimp only
    split
    · rfl
    · split <;> split <;>
        first
        | rfl
        | rw [siftDownGo_length fuel, swapL_length]

theorem heapBuild_length : ∀ (l : List α) (k hi first : ℕ),
    (heapBuild cmp d l k hi first).length = l.length
  | _, 0, _, _ => rfl
  | l, k + 1, hi, first => by
    unfold heapBuild
    rw [heapBuild_length _ k, siftDownGo_length]

theorem heapPop_length : ∀ (l : List α) (k first : ℕ),
    (heapPop cmp d l k first).length = l.length
  | _, 0, _ => rfl
  | l, k + 1, first => by
    unfold heapPop
    rw [heapPop_length _ k, siftDownGo_length, swapL_length]

theorem heapSortGo_length (l : List α) (a b : ℕ) :
    (heapSortGo cmp d l a b).length = l.length := by
  unfold heapSortGo
  rw [heapPop_length, heapBuild_length]

theorem quickSortF_length : ∀ (fuel : ℕ) (l : List α) (a b md : ℕ),
    (quickSortF cmp d fuel l a b md).length = l.length
  | 0, _, _, _, _ => rfl
  | fuel + 1, l, a, b, md => by
    unfold quickSortF
    dsimp only
    split
    · split
      · exact heapSortGo_length cmp d l a b
      · split
        · rw [quickSortF_length fuel, quickSortF_length fuel, doPivot_length]
        · rw [quickSortF_length fuel, quickSortF_length fuel, doPivot_length]
    · split
      · rw [insertionSortGo_length, shellPass_length]
      · rfl

/-- The embedded `sort.Slice` preserves the length of the slice. -/
theorem goSortSlice_length (l : List α) : (goSortSlice cmp d l).length = l.length :=
  quickSortF_length cmp d _ l 0 l.length (maxDepthGo l.length)

end GoSortLemmas

section GoSortConstFalse

variable {α : Type} (cmp : α → α → Bool) (d : α) (l : List α)

theorem medianOfThree_id (hF : ∀ i j, idxLess cmp d l i j = false) (m1 m0 m2 : ℕ) : medianOfThree cmp d l m1 m0 m2 = l := by
  unfold medianOfThree
  simp [hF]

theorem advA_id (hF : ∀ i j, idxLess cmp d l i j = false) (pivot c : ℕ) : ∀ (fuel a : ℕ), advA cmp d l pivot c fuel a = a
  | 0, _ => rfl
  | fuel + 1, a => by
    unfold advA
    rw [hF]
    simp

theorem advB_max (hF : ∀ i j, idxLess cmp d l i j = false) (pivot : ℕ) : ∀ (fuel b c : ℕ), b ≤ c → c - b ≤ fuel →
    advB cmp d l pivot c fuel b = c
  | 0, b, c, hbc, hfuel => by
    unfold advB
    omega
  | fuel + 1, b, c, hbc, hfuel => by
    unfold advB
    rw [hF]
    simp only [Bool.not_false, Bool.and_true]
    by_cases h : b < c
    · rw [if_pos (decide_eq_true h)]
      exact advB_max hF pivot fuel (b + 1) c (by omega) (by omega)
    · rw [if_neg (by simpa using h)]
      omega

theorem advC_id (hF : ∀ i j, idxLess cmp d l i j = false) (pivot b : ℕ) : ∀ (fuel c : ℕ), advC cmp d l pivot b fuel c = c
  | 0, _ => rfl
  | fuel + 1, c => by
    unfold advC
    rw [hF]
    simp

theorem partLoop_const (hF : ∀ i j, idxLess cmp d l i j = false) (pivot : ℕ) (fuel b c : ℕ) (hbc : b ≤ c) (hfuel : 1 ≤ fuel) :
    partLoop cmp d pivot fuel l b c = (l, c, c) := by
  obtain ⟨f, rfl⟩ : ∃ f, fuel = f + 1 := ⟨fuel - 1, by omega⟩
  unfold partLoop
  dsimp only
  rw [advB_max cmp d l hF pivot c b c hbc (by omega)]
  rw [advC_id cmp d l hF pivot c c c]
  rw [if_pos (le_refl c)]

theorem protB_min (hF : ∀ i j, idxLess cmp d l i j = false) (pivot a : ℕ) : ∀ (fuel b : ℕ), a ≤ b → b - a ≤ fuel →
    protB cmp d l pivot a fuel b = a
  | 0, b, hab, hfuel => by
    unfold protB
    omega
  | fuel + 1, b, hab, hfuel => by
    unfold protB
    rw [hF]
    simp only [Bool.not_false, Bool.and_true]
    by_cases h : a < b
    · rw [if_pos (decide_eq_true h)]
      exact protB_min hF pivot a fuel (b - 1) (by omega) (by omega)
    · rw [if_neg (by simpa using h)]
      omega

theorem protA_id (hF : ∀ i j, idxLess cmp d l i j = false) (pivot b : ℕ) : ∀ (fuel a : ℕ), protA cmp d l pivot b fuel a = a
  | 0, _ => rfl
  | fuel + 1, a => by
    unfold protA
    rw [hF]
    simp

theorem protLoop_const (hF : ∀ i j, idxLess cmp d l i j = false) (pivot : ℕ) (fuel a b : ℕ) (hab : a ≤ b) (hfuel : 1 ≤ fuel) :
    protLoop cmp d pivot fuel l a b = (l, a, a) := by
  obtain ⟨f, rfl⟩ : ∃ f, fuel = f + 1 := ⟨fuel - 1, by omega⟩
  unfold protLoop
  dsimp only
  rw [protB_min cmp d l hF pivot a b b hab (by omega)]
  rw [protA_id cmp d l hF pivot a a a]
  rw [if_pos (le_refl a)]

theorem doPivotTail_const (hF : ∀ i j, idxLess cmp d l i j = false) (m lo hi : ℕ) (h2 : lo + 2 ≤ hi) :
    doPivotTail cmp d m lo lo hi (l, lo + 1, hi - 1, hi - 1) = (l, lo, hi - 1) := by
  unfold doPivotTail
  dsimp only
  have hc : hi - (hi - 1) = 1 := by omega
  rw [hc]
  simp only [show decide (1 < 5) = true from rfl, Bool.not_true, Bool.false_and,
    Bool.false_eq_true, if_false]
  unfold doPivotProtect
  dsimp only
  rw [if_pos rfl]
  rw [protLoop_const cmp d l hF lo hi (lo + 1) (hi - 1) (by omega) (by omega)]
  dsimp only
  rw [show lo + 1 - 1 = lo from rfl, swapL_self]

theorem doPivot_const (hF : ∀ i j, idxLess cmp d l i j = false) (lo hi : ℕ) (h2 : lo + 2 ≤ hi) :
    doPivot cmp d l lo hi = (l, lo, hi - 1) := by
  unfold doPivot
  dsimp only
  have htukey :
      (if hi - lo > 40 then
        medianOfThree cmp d
          (medianOfThree cmp d
            (medianOfThree cmp d l lo (lo + (hi - lo) / 8) (lo + 2 * ((hi - lo) / 8)))
            ((lo + hi) / 2) ((lo + hi) / 2 - (hi - lo) / 8) ((lo + hi) / 2 + (hi - lo) / 8))
          (hi - 1) (hi - 1 - (hi - lo) / 8) (hi - 1 - 2 * ((hi - lo) / 8))
       else l) = l := by
    split
    · rw [medianOfThree_id cmp d l hF, medianOfThree_id cmp d l hF,
        medianOfThree_id cmp d l hF]
    · rfl
  rw [htukey, medianOfThree_id cmp d l hF, advA_id cmp d l hF lo (hi - 1) (hi - 1) (lo + 1)]
  rw [partLoop_const cmp d l hF lo hi (lo + 1) (hi - 1) (by omega) (by omega)]
  dsimp only
  exact doPivotTail_const cmp d l hF ((lo + hi) / 2) lo hi h2

theorem shellPass_id (hF : ∀ i j, idxLess cmp d l i j = false) : ∀ (fuel i b : ℕ), shellPass cmp d fuel l i b = l
  | 0, _, _ => rfl
  | fuel + 1, i, b => by
    unfold shellPass
    rw [hF]
    simp only [Bool.false_eq_true, if_false]
    split
    · exact shellPass_id hF fuel (i + 1) b
    · rfl

theorem insInner_id (hF : ∀ i j, idxLess cmp d l i j = false) (a : ℕ) : ∀ (j : ℕ), insInner cmp d a l j = l
  | 0 => rfl
  | j + 1 => by
    unfold insInner
    rw [hF]
    simp

theorem insLoop_id (hF : ∀ i j, idxLess cmp d l i j = false) (a : ℕ) : ∀ (fuel i b : ℕ), insLoop cmp d a fuel l i b = l
  | 0, _, _ => rfl
  | fuel + 1, i, b => by
    unfold insLoop
    rw [insInner_id cmp d l hF a i]
    split
    · exact insLoop_id hF a fuel (i + 1) b
    · rfl

theorem quickSortF_const (hF : ∀ i j, idxLess cmp d l i j = false) : ∀ (fuel a b md : ℕ), (b - a > 12 → 1 ≤ md) →
    quickSortF cmp d fuel l a b md = l
  | 0, _, _, _, _ => rfl
  | fuel + 1, a, b, md, hmd => by
    unfold quickSortF
    dsimp only
    by_cases h12 : b - a > 12
    · rw [if_pos h12, if_neg (show ¬md = 0 by have := hmd h12; omega)]
      rw [doPivot_const cmp d l hF a b (by omega)]
      dsimp only
      rw [if_pos (by omega : a - a < b - (b - 1))]
      rw [quickSortF_const hF fuel a a (md - 1) (by omega)]
      exact quickSortF_const hF fuel (b - 1) b (md - 1) (by omega)
    · rw [if_neg h12]
      by_cases h1 : b - a > 1
      · rw [if_pos h1]
        unfold insertionSortGo
        rw [shellPass_id cmp d l hF b (a + 6) b]
        exact insLoop_id cmp d l hF a b (a + 1) b
      · rw [if_neg h1]

end GoSortConstFalse

theorem maxDepthGo_pos (n : ℕ) (hn : 0 < n) : 1 ≤ maxDepthGo n := by
  obtain ⟨k, rfl⟩ : ∃ k, n = k + 1 := ⟨n - 1, by omega⟩
  unfold maxDepthGo maxDepthLoop
  rw [if_pos hn]
  omega

theorem goSortSlice_const {α : Type} (cmp : α → α → Bool) (d : α) (l : List α)
    (hF : ∀ i j, idxLess cmp d l i j = false) : goSortSlice cmp d l = l := by
  unfold goSortSlice
  apply quickSortF_const cmp d l hF
  intro h12
  exact maxDepthGo_pos l.length (by omega)

theorem foldl_min_zeros : ∀ (k : ℕ), (List.replicate k (0 : ℚ)).foldl min 0 = 0
  | 0 => rfl
  | k + 1 => by
    rw [List.replicate_succ, List.foldl_cons, min_self]
    exact foldl_min_zeros k

theorem foldl_max_zeros : ∀ (k : ℕ), (List.replicate k (0 : ℚ)).foldl max 0 = 0
  | 0 => rfl
  | k + 1 => by
    rw [List.replicate_succ, List.foldl_cons, max_self]
    exact foldl_max_zeros k

theorem aggregateScore_zeros (count : ℕ) (hc : 1 ≤ count) :
    aggregateScore count (List.replicate count 0) = 0 := by
  unfold aggregateScore
  rw [aggFold_eq]
  simp only [if_min_eq, if_max_eq]
  obtain ⟨k, rfl⟩ : ∃ k, count = k + 1 := ⟨count - 1, by omega⟩
  have hmin : (List.replicate (k + 1) (0 : ℚ)).foldl min (2 ^ 63) = 0 := by
    rw [List.replicate_succ, List.foldl_cons, min_eq_right (by positivity)]
    exact foldl_min_zeros k
  have hmax : (List.replicate (k + 1) (0 : ℚ)).foldl max (-(2 : ℚ) ^ 63) = 0 := by
    rw [List.replicate_succ, List.foldl_cons, max_eq_right (by norm_num)]
    exact foldl_max_zeros k
  have hsum : (List.replicate (k + 1) (0 : ℚ)).foldl (· + ·) 0 = 0 := by
    rw [foldl_add_eq, List.sum_replicate, smul_zero, add_zero]
  rw [hmin, hmax, hsum]
  split <;> norm_num

theorem testOutboudScore_allfail (obm : String → Bool) (oracle : String → ℕ → TrialOutcome)
    (tag : String) (count : ℕ) (hc : 1 ≤ count)
    (hfail : ∀ t i, oracle t i = .failure) :
    testOutboudScore obm oracle tag count = 0 := by
  unfold testOutboudScore
  split
  · have hmap : (List.range count).map (fun i => trialScore (oracle tag i)) =
        List.replicate count 0 := by
      rw [List.eq_replicate_iff]
      refine ⟨by simp, ?_⟩
      intro b hb
      obtain ⟨i, -, rfl⟩ := List.mem_map.mp hb
      rw [hfail tag i]
      rfl
    rw [hmap]
    exact aggregateScore_zeros count hc
  · rfl

theorem resultsZero_idxLess (tags : List String) :
    ∀ i j, idxLess resultLess dfltResult (tags.map (fun tag => ⟨tag, 0⟩)) i j = false := by
  intro i j
  unfold idxLess resultLess
  have hscore : ∀ k,
      ((tags.map (fun tag => (⟨tag, 0⟩ : OptimalStrategyTestResult))).getD k dfltResult).score
        = 0 := by
    intro k
    rw [List.getD_eq_getD_get?]
    cases h : (tags.map (fun tag => (⟨tag, 0⟩ : OptimalStrategyTestResult))).get? k with
    | none => rfl
    | some r =>
      have hmem : r ∈ tags.map (fun tag => (⟨tag, 0⟩ : OptimalStrategyTestResult)) :=
        List.get?_mem h
      obtain ⟨tag, -, rfl⟩ := List.mem_map.mp hmem
      rfl
  rw [hscore i, hscore j]
  simp

/-- C2, amended: the ranking of `run` is Go's `sort.Slice`, which is not a
stable sort; but when every candidate aggregates to the same score — in
particular when every probe of every candidate fails, scoring 0 — the sort
moves nothing and the first tag of the candidate list is published, with `run`
returning a nil error. -/
theorem c2_all_equal_scores_publish_first (s : OptimalStrategy)
    (oracle : String → ℕ → TrialOutcome) (hne : s.tags ≠ []) (hc : 1 ≤ s.count)
    (hfail : ∀ t i, oracle t i = .failure) :
    run oracle s = some ({ s with tag := s.tags.headI }, none) := by
  unfold run
  dsimp only
  have hres : s.tags.map
        (fun tag => (⟨tag, testOutboudScore s.obm oracle tag s.count⟩ :
          OptimalStrategyTestResult))
      = s.tags.map (fun tag => ⟨tag, 0⟩) := by
    apply List.map_congr_left
    intro tag _
    rw [testOutboudScore_allfail _ _ _ _ hc hfail]
  rw [hres]
  rw [show rankResults (s.tags.map fun tag => ⟨tag, 0⟩) = s.tags.map (fun tag => ⟨tag, 0⟩)
    from goSortSlice_const _ _ _ (resultsZero_idxLess s.tags)]
  obtain ⟨t, ts, htags⟩ := List.exists_cons_of_ne_nil hne
  rw [htags]
  rfl

/-- Witness for C2's amended claim: two candidates, all probes failing, the
first tag is published and the error is nil. -/
theorem c2_all_equal_scores_publish_first_witness :
    ∃ s0 : OptimalStrategy,
      NewOptimalStrategy goURLParse ⟨0, 0, "", 0⟩ = .ok s0 ∧
      run (fun _ _ => .failure) { s0 with tags := ["a", "b"] } =
        some ({ s0 with tags := ["a", "b"], tag := "a" }, none) := by
  refine ⟨_, rfl, ?_⟩
  exact c2_all_equal_scores_publish_first _ (fun _ _ => .failure)
    (by simp) (by norm_num) (fun _ _ => rfl)

/-- C6: recoverable probe errors never abort a round: a failed request scores
its trial 0, an unresolvable handler scores the whole candidate 0, and `run`
returns a nil error no matter what the probe oracle does. -/
theorem c6_probe_errors_absorbed (s : OptimalStrategy)
    (oracle : String → ℕ → TrialOutcome) (hne : s.tags ≠ []) :
    trialScore .failure = 0 ∧
    (∀ (obm : String → Bool) (orc : String → ℕ → TrialOutcome) (tag : String) (count : ℕ),
      obm tag = false → testOutboudScore obm orc tag count = 0) ∧
    ∃ s', run oracle s = some (s', (none : Option String)) := by
  refine ⟨rfl, ?_, ?_⟩
  · intro obm orc tag count h
    unfold testOutboudScore
    rw [h]
    simp
  · unfold run
    dsimp only
    rcases hsorted : rankResults (s.tags.map
        (fun tag => ⟨tag, testOutboudScore s.obm oracle tag s.count⟩)) with - | ⟨r, rs⟩
    · exfalso
      have hlen : (rankResults (s.tags.map
          (fun tag => (⟨tag, testOutboudScore s.obm oracle tag s.count⟩ :
            OptimalStrategyTestResult)))).length = s.tags.length := by
        unfold rankResults
        rw [goSortSlice_length, List.length_map]
      rw [hsorted] at hlen
      exact hne (List.length_eq_zero.mp hlen.symm)
    · exact ⟨_, rfl⟩

/-- Witness for C6 at a concrete strategy with two candidates. -/
theorem c6_probe_errors_absorbed_witness :
    ∃ s0 : OptimalStrategy,
      NewOptimalStrategy goURLParse ⟨0, 0, "", 0⟩ = .ok s0 ∧
      ∃ s', run (fun _ _ => .failure) { s0 with tags := ["a", "b"] } =
        some (s', (none : Option String)) := by
  refine ⟨_, rfl, ?_⟩
  exact (c6_probe_errors_absorbed _ (fun _ _ => .failure) (by simp)).2.2

/-- Counterexample to C2 as stated: seven candidates scored
`[1, 0, 0, 9, 0, 0, 9]`.  Candidates `d` (index 3) and `g` (index 6) tie with
the top score 9 and `d` precedes `g`, yet the gap-6 shellsort pass of
`sort.Slice` carries `g` over `d`, so the ranking places `g` first and `g` is
the published tag — the sort is not stable. -/
theorem c2_sort_not_stable_counterexample :
    rankResults [⟨"a", 1⟩, ⟨"b", 0⟩, ⟨"c", 0⟩, ⟨"d", 9⟩, ⟨"e", 0⟩, ⟨"f", 0⟩, ⟨"g", 9⟩] =
      [⟨"g", 9⟩, ⟨"d", 9⟩, ⟨"a", 1⟩, ⟨"b", 0⟩, ⟨"c", 0⟩, ⟨"e", 0⟩, ⟨"f", 0⟩] ∧
    (⟨"d", 9⟩ : OptimalStrategyTestResult).score =
      (⟨"g", 9⟩ : OptimalStrategyTestResult).score ∧
    ("g" : String) ≠ "d" := by
  refine ⟨by rfl, rfl, by decide⟩

/-- Witness for C5: a freshly constructed strategy panics on the empty
candidate list. -/
theorem c5_pick_panics_iff_empty_witness :
    ∃ s0 : OptimalStrategy,
      NewOptimalStrategy goURLParse ⟨0, 0, "", 0⟩ = .ok s0 ∧
      ∃ msg, PickOutbound s0 (fun _ => false) [] = .panicked msg := by
  refine ⟨_, rfl, ?_⟩
  exact (c5_pick_panics_iff_empty _ _ []).mpr rfl
